import Mathlib

/-!
Verification of the dependency-resolution engine of `django_orm_views/sync.py`.

The embedding models the two functions the specification is about:

* `_topological_sort_views` (with its inner generator
  `_sets_of_views_deps_iterator`), a Kahn-style layered topological sort over
  view descriptors keyed by their class; and
* `sync_views`, the rebuild orchestrator, whose database side effects
  (cursor, transaction, executed SQL statements, log records) are modelled as
  an explicit event trace.

Python dictionaries are modelled as association lists that keep first-insertion
key order and replace values in place on duplicate keys (CPython `dict`
semantics).  Python sets of identities are modelled as lists; every operation
performed on them by the source (emptiness test, difference, membership) is
membership-based, so list-with-duplicates is an adequate model.
-/

namespace DjangoOrmViews

/-- Model of `creation_sql` (and similar query objects): opaque SQL text plus bound
parameters; not interpreted by the resolver. -/
structure SqlQuery where
  sql : String
  params : List String
deriving DecidableEq, Repr

/-- One registered view descriptor, as consumed by `sync.py`:
`cls` models `view.__class__` (the identity key used by the resolver),
`name`, `view_dependencies` (a collection of identities), `creation_sql`
and the `hidden` flag. -/
structure View where
  cls : Nat
  name : String
  view_dependencies : List Nat
  creation_sql : SqlQuery
  hidden : Bool
deriving DecidableEq, Repr

/-- Association list modelling a Python `dict` keyed by view classes. -/
abbrev Dict (α : Type) := List (Nat × α)

/-- The keys of a dictionary, in insertion order. -/
def dictKeys {α : Type} (d : Dict α) : List Nat := d.map Prod.fst

/-- Python `dict` insertion: replace the value of an existing key in place,
otherwise append the new binding at the end. -/
def dictInsert {α : Type} (d : Dict α) (k : Nat) (v : α) : Dict α :=
  match d with
  | [] => [(k, v)]
  | p :: ps => if p.1 = k then (k, v) :: ps else p :: dictInsert ps k v

/-- Python `dict` lookup. -/
def dictGet {α : Type} (d : Dict α) (k : Nat) : Option α :=
  (d.find? (fun p => p.1 == k)).map Prod.snd

/-- Builds `{key(view): value(view) for view in views}` with CPython dict
comprehension semantics (first occurrence fixes the position, the last
occurrence fixes the value). -/
def buildDictAux {α : Type} (f : View → α) : List View → Dict α → Dict α
  | [], d => d
  | v :: vs, d => buildDictAux f vs (dictInsert d v.cls (f v))

/-- Builds `{view.__class__: f view for view in views}`. -/
def buildDict {α : Type} (f : View → α) (views : List View) : Dict α :=
  buildDictAux f views []

/-- Builds `view_cls_to_view = {view.__class__: view for view in views}`. -/
def viewClsToView (views : List View) : Dict View := buildDict (fun v => v) views

/-- Builds `view_to_deps = {view.__class__: set(view.view_dependencies) for view in views}`. -/
def viewToDeps (views : List View) : Dict (List Nat) :=
  buildDict (fun v => v.view_dependencies) views

/-- Computes `ordered = set(item for item, dep in view_to_deps.items() if not dep)`:
the keys of the working map whose remaining dependency set is empty. -/
def batchOf (d : Dict (List Nat)) : List Nat :=
  (d.filter (fun p => p.2.isEmpty)).map Prod.fst

/-- One iteration of the `while True` loop after the batch has been yielded:
`view_to_deps = {item: (dep - ordered) for item, dep in view_to_deps.items()
if item not in ordered}`. -/
def stepDict (d : Dict (List Nat)) : Dict (List Nat) :=
  let ordered := batchOf d
  (d.filter (fun p => decide (p.1 ∉ ordered))).map
    (fun p => (p.1, p.2.filter (fun e => decide (e ∉ ordered))))

/-- The `while True` loop of `_sets_of_views_deps_iterator`, with explicit
fuel: it returns the list of yielded batches (as class keys, one list per
wave) together with the residual working map at the moment the loop stops.
`loopDict_fuel_irrelevant` below shows that any fuel of at least
`d.length` yields the behaviour of the unbounded source loop. -/
def loopDict : Nat → Dict (List Nat) → List (List Nat) × Dict (List Nat)
  | 0, d => ([], d)
  | fuel + 1, d =>
    if (batchOf d).isEmpty then ([], d)
    else
      let rest := loopDict fuel (stepDict d)
      (batchOf d :: rest.1, rest.2)

/-- Model of `CyclicDependencyError`, raised by `_sets_of_views_deps_iterator`; its
message interpolates the residual `view_to_deps` map, modelled here as the
map itself.  (The `exceptions` module is not part of the resolver source;
modelled from the spec: the error "carries the residual identity→dependency
map".) -/
structure CyclicDependencyError where
  residual : Dict (List Nat)
deriving DecidableEq, Repr

/-- Model of `_sets_of_views_deps_iterator(views)`: the generator, consumed strictly
(as `_topological_sort_views` does via `list(...)`).  It either produces
every yielded batch — mapped back from classes to view instances through
`view_cls_to_view` — or raises `CyclicDependencyError` if the working map is
not empty once no further progress is possible. -/
def setsOfViewsDepsIterator (views : List View) :
    Except CyclicDependencyError (List (List View)) :=
  let clsToView := viewClsToView views
  let d := viewToDeps views
  let res := loopDict d.length d
  if res.2.isEmpty then
    .ok (res.1.map (fun batch => batch.filterMap (fun c => dictGet clsToView c)))
  else
    .error ⟨res.2⟩

/-- Model of `_topological_sort_views(list_of_views)`: flattens the yielded batches
(`list(itertools.chain.from_iterable(...))`). -/
def topologicalSortViews (views : List View) :
    Except CyclicDependencyError (List View) :=
  (setsOfViewsDepsIterator views).map List.flatten

/-! ### The rebuild orchestrator `sync_views`

Database side effects are modelled as an explicit event trace: opening a
cursor on a database, entering/leaving the `transaction.atomic()` block,
each `cursor.execute(...)`, and the per-database success log record. -/

/-- Modelled from the spec: `SUB_SCHEMA_NAME`, the dedicated namespace
("an isolated database schema used exclusively to hold generated views")
imported from the `constants` module, which is not part of the resolver
source.  The claims do not depend on its concrete value. -/
def subSchemaName : String := "postgres_views"

/-- Text of `f'DROP SCHEMA IF EXISTS {SUB_SCHEMA_NAME} CASCADE; CREATE SCHEMA {SUB_SCHEMA_NAME};'` -/
def dropCreateSchemaSql : String :=
  "DROP SCHEMA IF EXISTS " ++ subSchemaName ++ " CASCADE; CREATE SCHEMA " ++
    subSchemaName ++ ";"

/-- Text of `f'GRANT USAGE ON SCHEMA {SUB_SCHEMA_NAME} TO {user};'` -/
def grantUsageSql (user : String) : String :=
  "GRANT USAGE ON SCHEMA " ++ subSchemaName ++ " TO " ++ user ++ ";"

/-- Text of `f'GRANT SELECT ON {SUB_SCHEMA_NAME}.{view.name} TO {user};'` -/
def grantSelectSql (viewName user : String) : String :=
  "GRANT SELECT ON " ++ subSchemaName ++ "." ++ viewName ++ " TO " ++ user ++ ";"

/-- One observable database side effect of `sync_views`. -/
inductive Ev where
  /-- Event: `connections[database].cursor()` is entered. -/
  | openCursor (database : String)
  /-- Event: `transaction.atomic()` is entered while processing `database`. -/
  | beginAtomic (database : String)
  /-- Event: `cursor.execute(sql, params)` on the cursor of `database`. -/
  | execute (database : String) (sql : String) (params : List String)
  /-- Event: the `transaction.atomic()` block is left. -/
  | endAtomic (database : String)
  /-- Event: the cursor context is left. -/
  | closeCursor (database : String)
  /-- Event: `LOG.info("Successfully sync'd %s views for %s database", count, database)`. -/
  | logSynced (database : String) (count : Nat)
deriving DecidableEq, Repr

/-- The creation statements: `for view in views_to_generate:
cursor.execute(view.creation_sql.sql, params=view.creation_sql.params)`. -/
def createEvents (database : String) (viewsToGenerate : List View) : List Ev :=
  viewsToGenerate.map
    (fun v => Ev.execute database v.creation_sql.sql v.creation_sql.params)

/-- The grant statements: one `GRANT USAGE` when a grantee was supplied,
then — iterating `views_to_generate` again — a `GRANT SELECT` per view,
skipping a view when `view.hidden or grant_select_permissions_to_user is
None`. -/
def grantEvents (grantee : Option String) (database : String)
    (viewsToGenerate : List View) : List Ev :=
  (match grantee with
   | none => []
   | some user => [Ev.execute database (grantUsageSql user) []]) ++
  viewsToGenerate.filterMap (fun v =>
    match grantee with
    | none => none
    | some user =>
      if v.hidden then none
      else some (Ev.execute database (grantSelectSql v.name user) []))

/-- The body of the `for database, views in registry.items()` loop of
`sync_views` for a single registry entry: resolve first, then — only if
resolution succeeded — open the cursor, enter the atomic block, reset the
schema, create every view in resolved order, re-grant permissions, leave
both context managers and log the per-database success line.  A
`CyclicDependencyError` raised by `_topological_sort_views` propagates. -/
def syncOneDb (grantee : Option String) (database : String) (views : List View) :
    Except CyclicDependencyError (List Ev) :=
  match topologicalSortViews views with
  | .error e => .error e
  | .ok viewsToGenerate =>
    .ok ([Ev.openCursor database, Ev.beginAtomic database,
          Ev.execute database dropCreateSchemaSql []] ++
         createEvents database viewsToGenerate ++
         grantEvents grantee database viewsToGenerate ++
         [Ev.endAtomic database, Ev.closeCursor database,
          Ev.logSynced database viewsToGenerate.length])

/-- The observable outcome of a `sync_views` call: the events that were
performed before the call returned or raised, the raised error (if any),
and the Python return value.  `sync_views` contains no `return` statement,
so on normal completion its Python return value is `None`, modelled as
`none`. -/
structure SyncOutcome where
  events : List Ev
  error : Option CyclicDependencyError
  returned : Option Nat
deriving DecidableEq, Repr

/-- Model of `sync_views(grant_select_permissions_to_user)`: iterates the registry
(a dict `database -> views`, modelled as an explicit association list per
the spec's global-registry note) in order.  An exception raised while
processing one entry propagates out of `sync_views` at once: the events of
the already-processed entries have happened, and the remaining entries are
not processed. -/
def syncViews (registry : List (String × List View)) (grantee : Option String) :
    SyncOutcome :=
  match registry with
  | [] => ⟨[], none, none⟩
  | (database, views) :: rest =>
    match syncOneDb grantee database views with
    | .error e => ⟨[], some e, none⟩
    | .ok evs =>
      let out := syncViews rest grantee
      ⟨evs ++ out.events, out.error, none⟩

/-! ### Store-level model of `_sets_of_views_deps_iterator`

The frame claim (resolution has no observable side effect on the
caller-supplied descriptors) is about Python object mutation, so this second
rendering of the same generator makes the mutable set objects explicit: a
store holds the contents of every set object, and a view object refers to
its `view_dependencies` set by reference.  Every set operation the source
performs (`set(view.view_dependencies)`, `dep - ordered`) allocates a fresh
set; nothing writes to an existing cell. -/

/-- The heap of Python set objects: cell `r` holds the contents of the set
object with reference `r`. -/
structure PyState where
  sets : List (List Nat)
deriving DecidableEq, Repr

/-- Reading the contents of the set object `r`. -/
def pyReadSet (sigma : PyState) (r : Nat) : List Nat := (sigma.sets[r]?).getD []

/-- Allocating a fresh set object with the given contents. -/
def pyNewSet (sigma : PyState) (xs : List Nat) : Nat × PyState :=
  (sigma.sets.length, ⟨sigma.sets ++ [xs]⟩)

/-- A view instance as a Python object: its class and a reference to its
`view_dependencies` set object. -/
structure ViewObj where
  cls : Nat
  depsRef : Nat
deriving DecidableEq, Repr

/-- Builds `view_to_deps = {view.__class__: set(view.view_dependencies) for view
in views}`: for each view, `set(...)` reads the view's dependency set and
allocates a fresh copy; the dictionary maps the class to the fresh
reference. -/
def buildViewToDepsRefs : List ViewObj → Dict Nat → PyState → Dict Nat × PyState
  | [], d, sigma => (d, sigma)
  | v :: vs, d, sigma =>
    let alloc := pyNewSet sigma (pyReadSet sigma v.depsRef)
    buildViewToDepsRefs vs (dictInsert d v.cls alloc.1) alloc.2

/-- Computes `ordered` by reading each entry's current set object. -/
def batchOfRefs (sigma : PyState) (d : Dict Nat) : List Nat :=
  (d.filter (fun p => (pyReadSet sigma p.2).isEmpty)).map Prod.fst

/-- The dict comprehension `{item: (dep - ordered) for item, dep in
view_to_deps.items() if item not in ordered}`: `dep - ordered` allocates a
fresh set holding the difference. -/
def stepDictRefs (ordered : List Nat) : Dict Nat → PyState → Dict Nat × PyState
  | [], sigma => ([], sigma)
  | p :: ps, sigma =>
    if p.1 ∈ ordered then stepDictRefs ordered ps sigma
    else
      let alloc := pyNewSet sigma
        ((pyReadSet sigma p.2).filter (fun e => decide (e ∉ ordered)))
      let rest := stepDictRefs ordered ps alloc.2
      ((p.1, alloc.1) :: rest.1, rest.2)

/-- The `while True` loop, store-level. -/
def loopDictRefs : Nat → Dict Nat → PyState → (List (List Nat) × Dict Nat) × PyState
  | 0, d, sigma => (([], d), sigma)
  | fuel + 1, d, sigma =>
    let ordered := batchOfRefs sigma d
    if ordered.isEmpty then (([], d), sigma)
    else
      let stepped := stepDictRefs ordered d sigma
      let rest := loopDictRefs fuel stepped.1 stepped.2
      ((ordered :: rest.1.1, rest.1.2), rest.2)

/-- Model of `_sets_of_views_deps_iterator`, store-level: builds the working map from
fresh copies of every dependency set and runs the loop.  (The wrapping of
yielded classes back into view instances touches no set object and is
omitted.)  Returns the yielded batches of classes, the residual map and the
final store. -/
def setsOfViewsDepsIteratorRefs (views : List ViewObj) (sigma : PyState) :
    (List (List Nat) × Dict Nat) × PyState :=
  let built := buildViewToDepsRefs views [] sigma
  loopDictRefs built.1.length built.1 built.2

/-- The store only grows during resolution: the second store holds every
cell of the first unchanged, with freshly allocated cells appended after. -/
def StoreExtends (sigma sigma' : PyState) : Prop :=
  ∃ extra, sigma'.sets = sigma.sets ++ extra

/-- The class identities emitted by the resolution loop of
`_sets_of_views_deps_iterator`, in emission order. -/
def resolvedIds (views : List View) : List Nat :=
  (loopDict (viewToDeps views).length (viewToDeps views)).1.flatten

/-- The residual working map at the moment the resolution loop of
`_sets_of_views_deps_iterator` stops. -/
def residualMap (views : List View) : Dict (List Nat) :=
  (loopDict (viewToDeps views).length (viewToDeps views)).2

/-! ### Specification-side predicates about the dependency graph -/

/-- Every declared dependency is the identity of some supplied descriptor
(the §3 data-model invariant of the spec). -/
def DepsClosed (views : List View) : Prop :=
  ∀ v ∈ views, ∀ e ∈ v.view_dependencies, ∃ w ∈ views, w.cls = e

/-- The supplied descriptors contain a dependency cycle: a nonempty set `S`
of identities, each belonging to a supplied descriptor that declares a
dependency inside `S` again.  (Any such `S` consists of supplied
identities, so quantifying over subsets of the identity set is no
restriction; it keeps the predicate decidable on concrete inputs.) -/
def HasCycle (views : List View) : Prop :=
  ∃ S ∈ (views.map View.cls).toFinset.powerset, S.Nonempty ∧
    ∀ k ∈ S, ∃ v ∈ views, v.cls = k ∧ ∃ e ∈ v.view_dependencies, e ∈ S

/-- An identity is resolvable in a working map when it owns an entry all of
whose dependencies are in turn resolvable.  This is the algorithm-free
notion of "can be resolved"; a dangling dependency (no entry) is
unresolvable, and so is every member of a cycle. -/
inductive Resolvable (d : Dict (List Nat)) : Nat → Prop where
  | intro (p : Nat × List Nat) (hp : p ∈ d) (h : ∀ e ∈ p.2, Resolvable d e) :
      Resolvable d p.1

/-! ### Concrete inputs used by witnesses and counterexamples -/

/-- A trivial query body for examples. -/
def exQ (s : String) : SqlQuery := ⟨s, []⟩

/-- Example: descriptor 1 depends on 2. -/
def exA : View := ⟨1, "a", [2], exQ "CREATE VIEW a AS SELECT 1;", false⟩

/-- Example: descriptor 2 depends on 3; hidden. -/
def exB : View := ⟨2, "b", [3], exQ "CREATE VIEW b AS SELECT 2;", true⟩

/-- Example: descriptor 3, no dependencies. -/
def exC : View := ⟨3, "c", [], exQ "CREATE VIEW c AS SELECT 3;", false⟩

/-- Example: descriptor 1 depends on 2 (cyclic pair with `exCyc2`). -/
def exCyc1 : View := ⟨1, "a", [2], exQ "CREATE VIEW a AS SELECT 1;", false⟩

/-- Example: descriptor 2 depends on 1 (cyclic pair with `exCyc1`). -/
def exCyc2 : View := ⟨2, "b", [1], exQ "CREATE VIEW b AS SELECT 2;", false⟩

/-- Example: descriptor 5 depends on the absent identity 99. -/
def exDangling : View := ⟨5, "d", [99], exQ "CREATE VIEW d AS SELECT 5;", false⟩

/-- Example: duplicate of identity 7, first occurrence. -/
def exDupFirst : View := ⟨7, "first", [], exQ "CREATE VIEW first;", false⟩

/-- Example: duplicate of identity 7, last occurrence. -/
def exDupLast : View := ⟨7, "last", [], exQ "CREATE VIEW last;", false⟩

/-- A registry whose first database holds a cyclic pair and whose second
database holds a single trivially resolvable descriptor. -/
def exBadRegistry : List (String × List View) :=
  [("db1", [exCyc1, exCyc2]), ("db2", [exC])]

/-- A registry of one database with three acyclic descriptors, one hidden. -/
def exGoodRegistry : List (String × List View) := [("db1", [exA, exB, exC])]

/-! ## Lemmas about the dictionary model -/

theorem dictKeys_cons {α : Type} (p : Nat × α) (d : Dict α) :
    dictKeys (p :: d) = p.1 :: dictKeys d := rfl

theorem dictKeys_dictInsert {α : Type} (d : Dict α) (k : Nat) (v : α) :
    dictKeys (dictInsert d k v) =
      if k ∈ dictKeys d then dictKeys d else dictKeys d ++ [k] := by
  induction d with
  | nil => simp [dictInsert, dictKeys]
  | cons p ps ih =>
    by_cases h : p.1 = k
    · subst h
      simp [dictInsert, dictKeys]
    · have hne : ¬k = p.1 := fun hh => h hh.symm
      simp only [dictInsert, if_neg h, dictKeys_cons, ih]
      by_cases hk : k ∈ dictKeys ps
      · simp [hk, hne]
      · simp [hk, hne]

theorem mem_dictKeys_dictInsert {α : Type} (d : Dict α) (k k' : Nat) (v : α) :
    k' ∈ dictKeys (dictInsert d k v) ↔ k' ∈ dictKeys d ∨ k' = k := by
  rw [dictKeys_dictInsert]
  by_cases hk : k ∈ dictKeys d
  · simp only [if_pos hk]
    constructor
    · exact Or.inl
    · rintro (h | rfl)
      · exact h
      · exact hk
  · simp [if_neg hk]

theorem nodup_dictKeys_dictInsert {α : Type} (d : Dict α) (k : Nat) (v : α)
    (h : (dictKeys d).Nodup) : (dictKeys (dictInsert d k v)).Nodup := by
  rw [dictKeys_dictInsert]
  by_cases hk : k ∈ dictKeys d
  · simpa [hk] using h
  · simp [hk, h, List.nodup_append]

theorem dictGet_nil {α : Type} (k : Nat) : dictGet ([] : Dict α) k = none := rfl

theorem dictGet_cons {α : Type} (p : Nat × α) (d : Dict α) (k : Nat) :
    dictGet (p :: d) k = if p.1 = k then some p.2 else dictGet d k := by
  by_cases h : p.1 = k
  · rw [dictGet, List.find?_cons_of_pos _ (by simp [h]), if_pos h]
    rfl
  · rw [dictGet, List.find?_cons_of_neg _ (by simp [h]), if_neg h]
    rfl

theorem dictGet_dictInsert {α : Type} (d : Dict α) (k : Nat) (v : α) (k' : Nat) :
    dictGet (dictInsert d k v) k' = if k' = k then some v else dictGet d k' := by
  induction d with
  | nil =>
    simp only [dictInsert]
    rw [dictGet_cons]
    by_cases h : k' = k
    · simp [h]
    · rw [if_neg (show ¬k = k' from fun hh => h hh.symm), if_neg h, dictGet_nil]
  | cons p ps ih =>
    by_cases h : p.1 = k
    · subst h
      rw [show dictInsert (p :: ps) p.1 v = (p.1, v) :: ps by simp [dictInsert]]
      rw [dictGet_cons, dictGet_cons]
      by_cases h' : p.1 = k'
      · rw [if_pos h', if_pos h'.symm]
      · have h'' : ¬k' = p.1 := fun hh => h' hh.symm
        rw [if_neg h', if_neg h'', if_neg h']
    · simp only [dictInsert, if_neg h]
      rw [dictGet_cons, dictGet_cons, ih]
      by_cases h' : p.1 = k'
      · have h'' : ¬k' = k := fun hh => h (h'.trans hh)
        simp [h', h'']
      · simp [h']

theorem mem_dictInsert {α : Type} {p : Nat × α} {d : Dict α} {k : Nat} {v : α}
    (h : p ∈ dictInsert d k v) : p = (k, v) ∨ p ∈ d := by
  induction d with
  | nil => simpa [dictInsert] using h
  | cons q qs ih =>
    by_cases hq : q.1 = k
    · simp only [dictInsert, if_pos hq, List.mem_cons] at h
      rcases h with h | h
      · exact Or.inl h
      · exact Or.inr (List.mem_cons_of_mem _ h)
    · simp only [dictInsert, if_neg hq, List.mem_cons] at h
      rcases h with h | h
      · exact Or.inr (h ▸ List.mem_cons_self _ _)
      · rcases ih h with h' | h'
        · exact Or.inl h'
        · exact Or.inr (List.mem_cons_of_mem _ h')

theorem dictInsert_of_not_mem {α : Type} {d : Dict α} {k : Nat} (v : α)
    (h : k ∉ dictKeys d) : dictInsert d k v = d ++ [(k, v)] := by
  induction d with
  | nil => simp [dictInsert]
  | cons p ps ih =>
    simp only [dictKeys_cons, List.mem_cons, not_or] at h
    simp [dictInsert, Ne.symm h.1, ih h.2]

theorem dictGet_eq_some_of_mem_keys {α : Type} {d : Dict α} {k : Nat}
    (h : k ∈ dictKeys d) : ∃ v, dictGet d k = some v ∧ (k, v) ∈ d := by
  induction d with
  | nil => cases h
  | cons p ps ih =>
    by_cases hp : p.1 = k
    · refine ⟨p.2, ?_, ?_⟩
      · rw [dictGet_cons, if_pos hp]
      · rw [← hp]
        exact List.mem_cons.mpr (Or.inl rfl)
    · rw [dictKeys_cons, List.mem_cons] at h
      rcases h with h | h
      · exact absurd h.symm hp
      · rcases ih h with ⟨v, hget, hmem⟩
        refine ⟨v, ?_, List.mem_cons_of_mem _ hmem⟩
        rw [dictGet_cons, if_neg hp]
        exact hget

theorem mem_keys_of_mem {α : Type} {d : Dict α} {p : Nat × α} (h : p ∈ d) :
    p.1 ∈ dictKeys d := List.mem_map_of_mem Prod.fst h

theorem entry_unique {α : Type} {d : Dict α} (hnd : (dictKeys d).Nodup)
    {p q : Nat × α} (hp : p ∈ d) (hq : q ∈ d) (hk : p.1 = q.1) : p = q := by
  induction d with
  | nil => cases hp
  | cons r rs ih =>
    rw [dictKeys_cons, List.nodup_cons] at hnd
    rcases List.mem_cons.mp hp with rfl | hp' <;>
      rcases List.mem_cons.mp hq with rfl | hq'
    · rfl
    · have hm := mem_keys_of_mem hq'
      rw [← hk] at hm
      exact absurd hm hnd.1
    · have hm := mem_keys_of_mem hp'
      rw [hk] at hm
      exact absurd hm hnd.1
    · exact ih hnd.2 hp' hq'

theorem mem_of_dictGet_eq_some {α : Type} {d : Dict α} {k : Nat} {v : α}
    (h : dictGet d k = some v) : (k, v) ∈ d := by
  rw [dictGet] at h
  cases hf : d.find? (fun p => p.1 == k) with
  | none => rw [hf] at h; cases h
  | some q =>
    rw [hf] at h
    have hq := List.mem_of_find?_eq_some hf
    have hk : q.1 = k := by simpa using List.find?_some hf
    have hv : q.2 = v := by simpa using h
    rw [← hk, ← hv]
    simpa using hq

/-! ## Lemmas about dictionary construction (`buildDict`) -/

theorem buildDictAux_keys_nodup {α : Type} (f : View → α) (vs : List View)
    (d : Dict α) (h : (dictKeys d).Nodup) :
    (dictKeys (buildDictAux f vs d)).Nodup := by
  induction vs generalizing d with
  | nil => exact h
  | cons v vs ih => exact ih _ (nodup_dictKeys_dictInsert _ _ _ h)

theorem buildDict_keys_nodup {α : Type} (f : View → α) (views : List View) :
    (dictKeys (buildDict f views)).Nodup :=
  buildDictAux_keys_nodup f views [] List.nodup_nil

theorem mem_dictKeys_buildDictAux {α : Type} (f : View → α) (vs : List View)
    (d : Dict α) (k : Nat) :
    k ∈ dictKeys (buildDictAux f vs d) ↔ k ∈ dictKeys d ∨ ∃ v ∈ vs, v.cls = k := by
  induction vs generalizing d with
  | nil => simp [buildDictAux]
  | cons v vs ih =>
    rw [buildDictAux, ih, mem_dictKeys_dictInsert]
    constructor
    · rintro ((h | rfl) | h)
      · exact Or.inl h
      · exact Or.inr ⟨v, List.mem_cons_self _ _, rfl⟩
      · rcases h with ⟨w, hw, rfl⟩
        exact Or.inr ⟨w, List.mem_cons_of_mem _ hw, rfl⟩
    · rintro (h | ⟨w, hw, rfl⟩)
      · exact Or.inl (Or.inl h)
      · rcases List.mem_cons.mp hw with rfl | hw'
        · exact Or.inl (Or.inr rfl)
        · exact Or.inr ⟨w, hw', rfl⟩

theorem mem_dictKeys_buildDict {α : Type} (f : View → α) (views : List View)
    (k : Nat) :
    k ∈ dictKeys (buildDict f views) ↔ ∃ v ∈ views, v.cls = k := by
  rw [buildDict, mem_dictKeys_buildDictAux]
  simp [dictKeys]

theorem mem_buildDictAux {α : Type} (f : View → α) (vs : List View) (d : Dict α) :
    ∀ p ∈ buildDictAux f vs d, (∃ v ∈ vs, p = (v.cls, f v)) ∨ p ∈ d := by
  induction vs generalizing d with
  | nil => exact fun p hp => Or.inr hp
  | cons v vs ih =>
    intro p hp
    rcases ih _ p hp with ⟨w, hw, rfl⟩ | hp'
    · exact Or.inl ⟨w, List.mem_cons_of_mem _ hw, rfl⟩
    · rcases mem_dictInsert hp' with rfl | hp''
      · exact Or.inl ⟨v, List.mem_cons_self _ _, rfl⟩
      · exact Or.inr hp''

theorem mem_buildDict {α : Type} (f : View → α) (views : List View) :
    ∀ p ∈ buildDict f views, ∃ v ∈ views, p = (v.cls, f v) := by
  intro p hp
  rcases mem_buildDictAux f views [] p hp with h | h
  · exact h
  · cases h

theorem dictKeys_buildDictAux_congr {α β : Type} (f : View → α) (g : View → β)
    (vs : List View) (d : Dict α) (d' : Dict β)
    (h : dictKeys d = dictKeys d') :
    dictKeys (buildDictAux f vs d) = dictKeys (buildDictAux g vs d') := by
  induction vs generalizing d d' with
  | nil => exact h
  | cons v vs ih =>
    apply ih
    rw [dictKeys_dictInsert, dictKeys_dictInsert, h]

theorem dictKeys_buildDict_congr {α β : Type} (f : View → α) (g : View → β)
    (views : List View) :
    dictKeys (buildDict f views) = dictKeys (buildDict g views) :=
  dictKeys_buildDictAux_congr f g views [] [] rfl

theorem dictGet_buildDictAux {α : Type} (f : View → α) (vs : List View)
    (d : Dict α) (k : Nat) :
    dictGet (buildDictAux f vs d) k =
      match vs.reverse.find? (fun v => v.cls == k) with
      | some v => some (f v)
      | none => dictGet d k := by
  induction vs generalizing d with
  | nil => simp [buildDictAux]
  | cons v vs ih =>
    rw [buildDictAux, ih, List.reverse_cons, List.find?_append]
    cases hf : vs.reverse.find? (fun v => v.cls == k) with
    | some w => simp
    | none =>
      simp only [Option.none_or]
      by_cases hv : v.cls = k
      · simp [List.find?, hv, dictGet_dictInsert]
      · have hv' : ¬k = v.cls := fun hh => hv hh.symm
        simp only [List.find?, dictGet_dictInsert,
          show (v.cls == k) = false by simp [hv], if_neg hv']

theorem dictGet_buildDict {α : Type} (f : View → α) (views : List View) (k : Nat) :
    dictGet (buildDict f views) k =
      match views.reverse.find? (fun v => v.cls == k) with
      | some v => some (f v)
      | none => none := by
  rw [buildDict, dictGet_buildDictAux]
  cases views.reverse.find? (fun v => v.cls == k) <;> simp [dictGet_nil]

theorem buildDictAux_eq_append {α : Type} (f : View → α) (vs : List View)
    (d : Dict α) (hnd : (vs.map View.cls).Nodup)
    (hdisj : ∀ v ∈ vs, v.cls ∉ dictKeys d) :
    buildDictAux f vs d = d ++ vs.map (fun v => (v.cls, f v)) := by
  induction vs generalizing d with
  | nil => simp [buildDictAux]
  | cons v vs ih =>
    rw [List.map_cons, List.nodup_cons] at hnd
    rw [buildDictAux,
      dictInsert_of_not_mem (f v) (hdisj v (List.mem_cons_self _ _)),
      ih _ hnd.2 ?_]
    · simp
    · intro w hw
      rw [dictKeys, List.map_append]
      simp only [List.mem_append, not_or]
      refine ⟨hdisj w (List.mem_cons_of_mem _ hw), ?_⟩
      simp only [List.map_cons, List.map_nil, List.mem_singleton]
      intro hcl
      exact hnd.1 (hcl ▸ List.mem_map_of_mem View.cls hw)

theorem buildDict_eq_map {α : Type} (f : View → α) (views : List View)
    (hnd : (views.map View.cls).Nodup) :
    buildDict f views = views.map (fun v => (v.cls, f v)) := by
  have := buildDictAux_eq_append f views [] hnd (by intro v _; simp [dictKeys])
  simpa [buildDict] using this

theorem dictGet_viewClsToView_of_nodup {views : List View} {v : View}
    (hnd : (views.map View.cls).Nodup) (hv : v ∈ views) :
    dictGet (viewClsToView views) v.cls = some v := by
  rw [viewClsToView, buildDict_eq_map _ _ hnd]
  induction views with
  | nil => cases hv
  | cons w ws ih =>
    rw [List.map_cons, List.nodup_cons] at hnd
    rw [List.map_cons, dictGet_cons]
    rcases List.mem_cons.mp hv with rfl | hv'
    · rw [if_pos rfl]
    · have hne : w.cls ≠ v.cls := by
        intro hh
        exact hnd.1 (hh ▸ List.mem_map_of_mem View.cls hv')
      rw [if_neg hne]
      exact ih hnd.2 hv'

/-! ## Lemmas about the resolution loop -/

theorem mem_batchOf {d : Dict (List Nat)} {k : Nat} :
    k ∈ batchOf d ↔ ∃ p ∈ d, p.1 = k ∧ p.2 = [] := by
  constructor
  · intro h
    rcases List.mem_map.mp h with ⟨p, hp, rfl⟩
    rcases List.mem_filter.mp hp with ⟨hpd, hnil⟩
    exact ⟨p, hpd, rfl, List.isEmpty_iff.mp hnil⟩
  · rintro ⟨p, hpd, rfl, hnil⟩
    exact List.mem_map.mpr
      ⟨p, List.mem_filter.mpr ⟨hpd, List.isEmpty_iff.mpr hnil⟩, rfl⟩

theorem mem_batchOf_iff_of_nodup {d : Dict (List Nat)}
    (hnd : (dictKeys d).Nodup) {p : Nat × List Nat} (hp : p ∈ d) :
    p.1 ∈ batchOf d ↔ p.2 = [] := by
  constructor
  · intro h
    rcases mem_batchOf.mp h with ⟨q, hq, hk, hnil⟩
    rw [entry_unique hnd hp hq hk.symm]
    exact hnil
  · intro h
    exact mem_batchOf.mpr ⟨p, hp, rfl, h⟩

theorem mem_stepDict {d : Dict (List Nat)} {q : Nat × List Nat} :
    q ∈ stepDict d ↔ ∃ p ∈ d, p.1 ∉ batchOf d ∧
      q = (p.1, p.2.filter (fun e => decide (e ∉ batchOf d))) := by
  simp only [stepDict, List.mem_map, List.mem_filter, decide_eq_true_eq]
  constructor
  · rintro ⟨p, ⟨hp, hnb⟩, rfl⟩
    exact ⟨p, hp, hnb, rfl⟩
  · rintro ⟨p, hp, hnb, rfl⟩
    exact ⟨p, ⟨hp, hnb⟩, rfl⟩

theorem dictKeys_stepDict (d : Dict (List Nat)) :
    dictKeys (stepDict d) =
      (dictKeys d).filter (fun k => decide (k ∉ batchOf d)) := by
  simp only [stepDict, dictKeys, List.map_map, List.filter_map]
  rfl

theorem dictKeys_stepDict_nodup {d : Dict (List Nat)}
    (hnd : (dictKeys d).Nodup) : (dictKeys (stepDict d)).Nodup := by
  rw [dictKeys_stepDict]
  exact hnd.filter _

theorem length_stepDict_lt {d : Dict (List Nat)} (h : batchOf d ≠ []) :
    (stepDict d).length < d.length := by
  simp only [stepDict, List.length_map]
  apply List.length_filter_lt_length_iff_exists.mpr
  have hex : ∃ k, k ∈ batchOf d := by
    cases hb : batchOf d with
    | nil => exact absurd hb h
    | cons a l => exact ⟨a, hb ▸ List.mem_cons_self a l⟩
  rcases hex with ⟨k, hk⟩
  rcases mem_batchOf.mp hk with ⟨p, hp, rfl, hnil⟩
  exact ⟨p, hp, by simp [hk]⟩

theorem keys_filter_mem_batch {d : Dict (List Nat)}
    (hnd : (dictKeys d).Nodup) :
    (dictKeys d).filter (fun k => decide (k ∈ batchOf d)) = batchOf d := by
  rw [dictKeys, List.filter_map]
  have hcongr : d.filter ((fun k => decide (k ∈ batchOf d)) ∘ Prod.fst) =
      d.filter (fun p => p.2.isEmpty) := by
    apply List.filter_congr
    intro p hp
    cases hp2 : p.2 with
    | nil =>
      have := (mem_batchOf_iff_of_nodup hnd hp).mpr hp2
      simp [Function.comp, this]
    | cons a l =>
      have hnm : p.1 ∉ batchOf d := by
        intro hmem
        have := (mem_batchOf_iff_of_nodup hnd hp).mp hmem
        simp [hp2] at this
      simp [Function.comp, hnm]
  rw [hcongr]
  rfl

theorem batch_append_stepKeys_perm {d : Dict (List Nat)}
    (hnd : (dictKeys d).Nodup) :
    (batchOf d ++ dictKeys (stepDict d)).Perm (dictKeys d) := by
  have h1 := List.filter_append_perm (fun k => decide (k ∈ batchOf d)) (dictKeys d)
  rw [keys_filter_mem_batch hnd] at h1
  have h2 : (dictKeys d).filter (fun k => !decide (k ∈ batchOf d)) =
      dictKeys (stepDict d) := by
    rw [dictKeys_stepDict]
    apply List.filter_congr
    intro k _
    simp [decide_not]
  rw [h2] at h1
  exact h1

theorem loopDict_zero (d : Dict (List Nat)) : loopDict 0 d = ([], d) := rfl

theorem loopDict_succ (fuel : Nat) (d : Dict (List Nat)) :
    loopDict (fuel + 1) d =
      if (batchOf d).isEmpty then ([], d)
      else (batchOf d :: (loopDict fuel (stepDict d)).1,
            (loopDict fuel (stepDict d)).2) := rfl

theorem loopDict_final_batch {fuel : Nat} {d : Dict (List Nat)}
    (h : d.length ≤ fuel) : batchOf (loopDict fuel d).2 = [] := by
  induction fuel generalizing d with
  | zero =>
    have hd : d = [] := List.length_eq_zero.mp (Nat.le_zero.mp h)
    subst hd
    simp [loopDict_zero, batchOf]
  | succ fuel ih =>
    rw [loopDict_succ]
    by_cases hb : (batchOf d).isEmpty
    · rw [if_pos hb]
      exact List.isEmpty_iff.mp hb
    · rw [if_neg hb]
      have hlt := length_stepDict_lt
        (fun hh => hb (List.isEmpty_iff.mpr hh))
      exact ih (Nat.le_of_lt_succ (Nat.lt_of_lt_of_le hlt h))

theorem loopDict_flatten_perm (fuel : Nat) (d : Dict (List Nat))
    (hnd : (dictKeys d).Nodup) :
    ((loopDict fuel d).1.flatten ++ dictKeys (loopDict fuel d).2).Perm
      (dictKeys d) := by
  induction fuel generalizing d with
  | zero => simp [loopDict_zero]
  | succ fuel ih =>
    rw [loopDict_succ]
    by_cases hb : (batchOf d).isEmpty
    · rw [if_pos hb]
      simp
    · rw [if_neg hb]
      have h1 := ih (stepDict d) (dictKeys_stepDict_nodup hnd)
      show ((batchOf d :: (loopDict fuel (stepDict d)).1).flatten ++
        dictKeys (loopDict fuel (stepDict d)).2).Perm (dictKeys d)
      rw [List.flatten_cons, List.append_assoc]
      exact (List.Perm.append_left (batchOf d) h1).trans
        (batch_append_stepKeys_perm hnd)

theorem loopDict_resid_deps (fuel : Nat) (d : Dict (List Nat)) :
    ∀ q ∈ (loopDict fuel d).2, ∃ p ∈ d, q.1 = p.1 ∧
      q.2 = p.2.filter (fun e => decide (e ∉ (loopDict fuel d).1.flatten)) := by
  induction fuel generalizing d with
  | zero =>
    intro q hq
    refine ⟨q, hq, rfl, ?_⟩
    rw [loopDict_zero]
    simp
  | succ fuel ih =>
    intro q hq
    rw [loopDict_succ] at hq ⊢
    by_cases hb : (batchOf d).isEmpty
    · rw [if_pos hb] at hq ⊢
      exact ⟨q, hq, rfl, by simp⟩
    · rw [if_neg hb] at hq ⊢
      rcases ih (stepDict d) q hq with ⟨p', hp', hk, hdeps⟩
      rcases mem_stepDict.mp hp' with ⟨p, hp, hnb, rfl⟩
      refine ⟨p, hp, hk, ?_⟩
      rw [hdeps]
      show _ = p.2.filter (fun e =>
        decide (e ∉ (batchOf d :: (loopDict fuel (stepDict d)).1).flatten))
      rw [List.filter_filter, List.flatten_cons]
      apply List.filter_congr
      intro e he
      rcases Decidable.em (e ∈ batchOf d) with heb | heb <;>
        rcases Decidable.em (e ∈ (loopDict fuel (stepDict d)).1.flatten)
          with hef | hef <;>
        simp [heb, hef]

theorem loopDict_flatten_deps {fuel : Nat} {d : Dict (List Nat)}
    (hnd : (dictKeys d).Nodup) :
    ∀ p ∈ d, p.1 ∈ (loopDict fuel d).1.flatten →
      ∀ e ∈ p.2, e ∈ (loopDict fuel d).1.flatten := by
  induction fuel generalizing d with
  | zero =>
    intro p _ h
    rw [loopDict_zero] at h
    simp at h
  | succ fuel ih =>
    intro p hp hmem e he
    rw [loopDict_succ] at hmem ⊢
    by_cases hb : (batchOf d).isEmpty
    · rw [if_pos hb] at hmem
      simp at hmem
    · rw [if_neg hb] at hmem ⊢
      rw [show (batchOf d :: (loopDict fuel (stepDict d)).1,
          (loopDict fuel (stepDict d)).2).1 =
          batchOf d :: (loopDict fuel (stepDict d)).1 from rfl] at hmem ⊢
      rw [List.flatten_cons, List.mem_append] at hmem ⊢
      by_cases hpb : p.1 ∈ batchOf d
      · have hnil := (mem_batchOf_iff_of_nodup hnd hp).mp hpb
        rw [hnil] at he
        cases he
      · rcases hmem with hmem | hmem
        · exact absurd hmem hpb
        · have hp' : (p.1, p.2.filter (fun e => decide (e ∉ batchOf d))) ∈
              stepDict d := mem_stepDict.mpr ⟨p, hp, hpb, rfl⟩
          by_cases heb : e ∈ batchOf d
          · exact Or.inl heb
          · refine Or.inr (ih (dictKeys_stepDict_nodup hnd) _ hp' hmem e ?_)
            simp [List.mem_filter, he, heb]

theorem loopDict_flatten_closed (fuel : Nat) (d : Dict (List Nat))
    (R : Nat → Prop) (hR : ∀ p ∈ d, (∀ e ∈ p.2, R e) → R p.1) :
    ∀ x ∈ (loopDict fuel d).1.flatten, R x := by
  induction fuel generalizing d with
  | zero =>
    intro x hx
    rw [loopDict_zero] at hx
    simp at hx
  | succ fuel ih =>
    intro x hx
    rw [loopDict_succ] at hx
    by_cases hb : (batchOf d).isEmpty
    · rw [if_pos hb] at hx
      simp at hx
    · rw [if_neg hb] at hx
      rw [show (batchOf d :: (loopDict fuel (stepDict d)).1,
          (loopDict fuel (stepDict d)).2).1 =
          batchOf d :: (loopDict fuel (stepDict d)).1 from rfl] at hx
      rw [List.flatten_cons, List.mem_append] at hx
      have hbR : ∀ k ∈ batchOf d, R k := by
        intro k hk
        rcases mem_batchOf.mp hk with ⟨p, hp, rfl, hnil⟩
        refine hR p hp ?_
        rw [hnil]
        intro e he
        cases he
      rcases hx with hx | hx
      · exact hbR x hx
      · refine ih (stepDict d) ?_ x hx
        intro q hq hdeps
        rcases mem_stepDict.mp hq with ⟨p, hp, hnb, rfl⟩
        refine hR p hp ?_
        intro e he
        by_cases heb : e ∈ batchOf d
        · exact hbR e heb
        · exact hdeps e (by simp [List.mem_filter, he, heb])

theorem mem_flatten_resolvable {fuel : Nat} {d : Dict (List Nat)} :
    ∀ x ∈ (loopDict fuel d).1.flatten, Resolvable d x :=
  loopDict_flatten_closed fuel d (Resolvable d)
    (fun p hp h => Resolvable.intro p hp h)

theorem resolvable_mem_flatten {fuel : Nat} {d : Dict (List Nat)}
    (hnd : (dictKeys d).Nodup) (hfuel : d.length ≤ fuel) :
    ∀ k, Resolvable d k → k ∈ (loopDict fuel d).1.flatten := by
  intro k hk
  induction hk with
  | intro p hp hdeps ihdeps =>
    by_contra hnot
    have hkd : p.1 ∈ dictKeys d := mem_keys_of_mem hp
    have hperm := loopDict_flatten_perm fuel d hnd
    have hkr : p.1 ∈ dictKeys (loopDict fuel d).2 := by
      rcases List.mem_append.mp (hperm.symm.subset hkd) with h | h
      · exact absurd h hnot
      · exact h
    rcases dictGet_eq_some_of_mem_keys hkr with ⟨v, _, hv⟩
    rcases loopDict_resid_deps _ _ _ hv with ⟨p0, hp0, hk0, hdeps0⟩
    have hpp0 : p = p0 := entry_unique hnd hp hp0 hk0
    have hvnil : v = [] := by
      show (p.1, v).2 = []
      rw [hdeps0, ← hpp0]
      apply List.filter_eq_nil_iff.mpr
      intro e he
      simp [ihdeps e he]
    have hbatch : p.1 ∈ batchOf (loopDict fuel d).2 :=
      mem_batchOf.mpr ⟨(p.1, v), hv, rfl, hvnil⟩
    rw [loopDict_final_batch hfuel] at hbatch
    cases hbatch

theorem cycle_not_resolvable {d : Dict (List Nat)}
    (hnd : (dictKeys d).Nodup) (S : Finset Nat)
    (hS : ∀ k ∈ S, ∃ p ∈ d, p.1 = k ∧ ∃ e ∈ p.2, e ∈ S) :
    ∀ k, Resolvable d k → k ∉ S := by
  intro k hk
  induction hk with
  | intro p hp hdeps ih =>
    intro hmem
    rcases hS p.1 hmem with ⟨q, hq, hqk, e, he, heS⟩
    have hqp : q = p := entry_unique hnd hq hp hqk
    rw [hqp] at he
    exact ih e he heS

theorem resid_empty_of_acyclic {fuel : Nat} {d : Dict (List Nat)}
    (hnd : (dictKeys d).Nodup) (hfuel : d.length ≤ fuel)
    (hclosed : ∀ p ∈ d, ∀ e ∈ p.2, e ∈ dictKeys d)
    (hnocycle : ¬∃ S : Finset Nat, S.Nonempty ∧
      ∀ k ∈ S, ∃ p ∈ d, p.1 = k ∧ ∃ e ∈ p.2, e ∈ S) :
    (loopDict fuel d).2 = [] := by
  by_contra hne
  apply hnocycle
  refine ⟨(dictKeys (loopDict fuel d).2).toFinset, ?_, ?_⟩
  · cases hres : (loopDict fuel d).2 with
    | nil => exact absurd hres hne
    | cons q qs => exact ⟨q.1, by simp [hres, dictKeys]⟩
  · intro k hk
    rw [List.mem_toFinset] at hk
    rcases dictGet_eq_some_of_mem_keys hk with ⟨v, _, hv⟩
    rcases loopDict_resid_deps _ _ _ hv with ⟨p, hp, hk0, hdeps⟩
    have hbempty := loopDict_final_batch hfuel
    have hvne : v ≠ [] := by
      intro hnil
      have hmem : k ∈ batchOf (loopDict fuel d).2 :=
        mem_batchOf.mpr ⟨(k, v), hv, rfl, hnil⟩
      rw [hbempty] at hmem
      cases hmem
    cases hvc : v with
    | nil => exact absurd hvc hvne
    | cons e es =>
      have hev : e ∈ v := hvc ▸ List.mem_cons_self e es
      have hef : e ∈ p.2 ∧ e ∉ (loopDict fuel d).1.flatten := by
        have hev' := hev
        rw [show v = (k, v).2 from rfl, hdeps] at hev'
        rcases List.mem_filter.mp hev' with ⟨h1, h2⟩
        exact ⟨h1, by simpa using h2⟩
      refine ⟨p, hp, hk0.symm, e, hef.1, ?_⟩
      rw [List.mem_toFinset]
      have hed : e ∈ dictKeys d := hclosed p hp e hef.1
      have hperm := loopDict_flatten_perm fuel d hnd
      rcases List.mem_append.mp (hperm.symm.subset hed) with h | h
      · exact absurd h hef.2
      · exact h

theorem resid_nonempty_of_cycle {fuel : Nat} {d : Dict (List Nat)}
    (hnd : (dictKeys d).Nodup) (S : Finset Nat) (hSne : S.Nonempty)
    (hS : ∀ k ∈ S, ∃ p ∈ d, p.1 = k ∧ ∃ e ∈ p.2, e ∈ S) :
    (loopDict fuel d).2 ≠ [] := by
  rcases hSne with ⟨s, hs⟩
  rcases hS s hs with ⟨p, hp, hps, _⟩
  have hsd : s ∈ dictKeys d := hps ▸ mem_keys_of_mem hp
  have hsnotflat : s ∉ (loopDict fuel d).1.flatten := by
    intro hmem
    exact cycle_not_resolvable hnd S hS s (mem_flatten_resolvable _ hmem) hs
  have hperm := loopDict_flatten_perm fuel d hnd
  have hsr : s ∈ dictKeys (loopDict fuel d).2 := by
    rcases List.mem_append.mp (hperm.symm.subset hsd) with h | h
    · exact absurd h hsnotflat
    · exact h
  intro hnil
  rw [hnil] at hsr
  cases hsr

theorem loopDict_order {fuel : Nat} {d : Dict (List Nat)}
    (hnd : (dictKeys d).Nodup) (hres : (loopDict fuel d).2 = []) :
    ∀ p ∈ d, ∀ e ∈ p.2,
      (loopDict fuel d).1.flatten.indexOf e <
        (loopDict fuel d).1.flatten.indexOf p.1 := by
  induction fuel generalizing d with
  | zero =>
    rw [loopDict_zero] at hres ⊢
    subst hres
    intro p hp
    cases hp
  | succ fuel ih =>
    rw [loopDict_succ] at hres ⊢
    by_cases hb : (batchOf d).isEmpty
    · rw [if_pos hb] at hres ⊢
      subst hres
      intro p hp
      cases hp
    · rw [if_neg hb] at hres ⊢
      intro p hp e he
      have hres' : (loopDict fuel (stepDict d)).2 = [] := hres
      have hnd' := dictKeys_stepDict_nodup hnd
      show (batchOf d :: (loopDict fuel (stepDict d)).1).flatten.indexOf e <
        (batchOf d :: (loopDict fuel (stepDict d)).1).flatten.indexOf p.1
      rw [List.flatten_cons]
      by_cases hpb : p.1 ∈ batchOf d
      · have hnil := (mem_batchOf_iff_of_nodup hnd hp).mp hpb
        rw [hnil] at he
        cases he
      · have hpk : p.1 ∈ dictKeys (stepDict d) := by
          rw [dictKeys_stepDict]
          exact List.mem_filter.mpr ⟨mem_keys_of_mem hp, by simp [hpb]⟩
        have hperm' := loopDict_flatten_perm fuel (stepDict d) hnd'
        rw [hres'] at hperm'
        rw [show dictKeys ([] : Dict (List Nat)) = [] from rfl,
          List.append_nil] at hperm'
        have hflat' : ((loopDict fuel (stepDict d)).1.flatten).Perm
            (dictKeys (stepDict d)) := hperm'
        have hpflat : p.1 ∈ (loopDict fuel (stepDict d)).1.flatten :=
          hflat'.symm.subset hpk
        rw [List.indexOf_append_of_not_mem hpb]
        by_cases heb : e ∈ batchOf d
        · rw [List.indexOf_append_of_mem heb]
          exact Nat.lt_of_lt_of_le (List.indexOf_lt_length.mpr heb)
            (Nat.le_add_right _ _)
        · have hp' : (p.1, p.2.filter (fun x => decide (x ∉ batchOf d))) ∈
              stepDict d := mem_stepDict.mpr ⟨p, hp, hpb, rfl⟩
          have he' : e ∈ p.2.filter (fun x => decide (x ∉ batchOf d)) :=
            List.mem_filter.mpr ⟨he, by simp [heb]⟩
          have hih := ih hnd' hres' _ hp' e he'
          rw [List.indexOf_append_of_not_mem heb]
          exact Nat.add_lt_add_left hih _

/-! ## Bridging lemmas between descriptors and the working map -/

theorem dictKeys_viewToDeps_eq {views : List View}
    (hnd : (views.map View.cls).Nodup) :
    dictKeys (viewToDeps views) = views.map View.cls := by
  rw [viewToDeps, buildDict_eq_map _ _ hnd, dictKeys, List.map_map]
  rfl

theorem mem_viewToDeps_of_nodup {views : List View}
    (hnd : (views.map View.cls).Nodup) {v : View} (hv : v ∈ views) :
    (v.cls, v.view_dependencies) ∈ viewToDeps views := by
  rw [viewToDeps, buildDict_eq_map _ _ hnd]
  exact List.mem_map_of_mem _ hv

theorem flatten_map_filterMap {α β : Type} (g : α → Option β)
    (L : List (List α)) :
    (L.map (fun l => l.filterMap g)).flatten = L.flatten.filterMap g := by
  induction L with
  | nil => rfl
  | cons l L ih =>
    rw [List.map_cons, List.flatten_cons, List.flatten_cons,
      List.filterMap_append, ih]

theorem setsOfViewsDepsIterator_eq (views : List View) :
    setsOfViewsDepsIterator views =
      if (residualMap views).isEmpty then
        .ok ((loopDict (viewToDeps views).length (viewToDeps views)).1.map
          (fun batch => batch.filterMap
            (fun c => dictGet (viewClsToView views) c)))
      else .error ⟨residualMap views⟩ := rfl

theorem topologicalSortViews_eq_ok_of_resid {views : List View}
    (h : residualMap views = []) :
    topologicalSortViews views =
      .ok ((resolvedIds views).filterMap
        (fun c => dictGet (viewClsToView views) c)) := by
  rw [topologicalSortViews, setsOfViewsDepsIterator_eq, h]
  rw [if_pos (by simp)]
  show Except.ok _ = _
  rw [flatten_map_filterMap]
  rfl

theorem topologicalSortViews_eq_error_of_resid {views : List View}
    (h : residualMap views ≠ []) :
    topologicalSortViews views = .error ⟨residualMap views⟩ := by
  rw [topologicalSortViews, setsOfViewsDepsIterator_eq]
  rw [if_neg (by simpa [List.isEmpty_iff] using h)]
  rfl

theorem resolvedIds_subset_keys {views : List View} :
    ∀ c ∈ resolvedIds views, c ∈ dictKeys (viewToDeps views) := by
  intro c hc
  have hperm := loopDict_flatten_perm (viewToDeps views).length
    (viewToDeps views) (buildDict_keys_nodup _ _)
  exact hperm.subset (List.mem_append.mpr (Or.inl hc))

theorem resolvedIds_perm_keys {views : List View}
    (h : residualMap views = []) :
    (resolvedIds views).Perm (dictKeys (viewToDeps views)) := by
  have hperm := loopDict_flatten_perm (viewToDeps views).length
    (viewToDeps views) (buildDict_keys_nodup _ _)
  rw [show (loopDict (viewToDeps views).length (viewToDeps views)).2 =
    residualMap views from rfl, h,
    show dictKeys ([] : Dict (List Nat)) = [] from rfl,
    List.append_nil] at hperm
  exact hperm

theorem clsToView_lookup {views : List View} {c : Nat}
    (hc : c ∈ dictKeys (viewToDeps views)) :
    ∃ v, dictGet (viewClsToView views) c = some v ∧ v.cls = c ∧ v ∈ views := by
  have hkeys : dictKeys (viewClsToView views) = dictKeys (viewToDeps views) :=
    dictKeys_buildDict_congr _ _ views
  rcases dictGet_eq_some_of_mem_keys (hkeys ▸ hc) with ⟨v, hget, hmem⟩
  rcases mem_buildDict _ _ _ hmem with ⟨w, hw, heq⟩
  have hc' : c = w.cls := congrArg Prod.fst heq
  have hv : v = w := congrArg Prod.snd heq
  refine ⟨v, hget, ?_, ?_⟩
  · rw [hv, ← hc']
  · rw [hv]
    exact hw

theorem filterMap_map_cls_eq {g : Nat → Option View} : ∀ l : List Nat,
    (∀ c ∈ l, ∃ v, g c = some v ∧ v.cls = c) →
    (l.filterMap g).map View.cls = l := by
  intro l
  induction l with
  | nil => intro _; rfl
  | cons c l ih =>
    intro h
    rcases h c (List.mem_cons_self _ _) with ⟨v, hg, hcls⟩
    rw [List.filterMap_cons_some hg, List.map_cons, hcls,
      ih (fun c' hc' => h c' (List.mem_cons_of_mem _ hc'))]

theorem out_map_cls (views : List View) :
    (((resolvedIds views).filterMap
      (fun c => dictGet (viewClsToView views) c)).map View.cls) =
      resolvedIds views := by
  apply filterMap_map_cls_eq
  intro c hc
  rcases clsToView_lookup (resolvedIds_subset_keys c hc) with ⟨v, hget, hcls, _⟩
  exact ⟨v, hget, hcls⟩

theorem filterMap_congr_self {g : View → Option View} : ∀ l : List View,
    (∀ v ∈ l, g v = some v) → l.filterMap g = l := by
  intro l
  induction l with
  | nil => intro _; rfl
  | cons v vs ih =>
    intro h
    rw [List.filterMap_cons_some (h v (List.mem_cons_self _ _)),
      ih (fun w hw => h w (List.mem_cons_of_mem _ hw))]

theorem out_perm_views {views : List View}
    (hnd : (views.map View.cls).Nodup) (h : residualMap views = []) :
    ((resolvedIds views).filterMap
      (fun c => dictGet (viewClsToView views) c)).Perm views := by
  have h1 : (resolvedIds views).Perm (views.map View.cls) := by
    have h0 := resolvedIds_perm_keys h
    rwa [dictKeys_viewToDeps_eq hnd] at h0
  have h2 := h1.filterMap (fun c => dictGet (viewClsToView views) c)
  have h3 : (views.map View.cls).filterMap
      (fun c => dictGet (viewClsToView views) c) = views := by
    rw [List.filterMap_map]
    exact filterMap_congr_self views
      (fun v hv => dictGet_viewClsToView_of_nodup hnd hv)
  rw [h3] at h2
  exact h2

/-! ## Claims -/

theorem residualMap_empty_of_acyclic {views : List View}
    (hclosed : DepsClosed views) (hacyc : ¬HasCycle views) :
    residualMap views = [] := by
  have hndd : (dictKeys (viewToDeps views)).Nodup := buildDict_keys_nodup _ views
  have hclosedd : ∀ p ∈ viewToDeps views, ∀ e ∈ p.2,
      e ∈ dictKeys (viewToDeps views) := by
    intro p hp e he
    rcases mem_buildDict _ _ p hp with ⟨v, hv, rfl⟩
    rcases hclosed v hv e he with ⟨w, hw, hwc⟩
    exact (mem_dictKeys_buildDict _ _ _).mpr ⟨w, hw, hwc⟩
  have hnocycled : ¬∃ S : Finset Nat, S.Nonempty ∧
      ∀ k ∈ S, ∃ p ∈ viewToDeps views, p.1 = k ∧ ∃ e ∈ p.2, e ∈ S := by
    rintro ⟨S, hSne, hS⟩
    apply hacyc
    refine ⟨S, ?_, hSne, ?_⟩
    · rw [Finset.mem_powerset]
      intro k hk
      rcases hS k hk with ⟨p, hp, hpk, _⟩
      have hkd : k ∈ dictKeys (viewToDeps views) := hpk ▸ mem_keys_of_mem hp
      rcases (mem_dictKeys_buildDict _ _ _).mp hkd with ⟨v, hv, hvc⟩
      exact List.mem_toFinset.mpr (hvc ▸ List.mem_map_of_mem View.cls hv)
    · intro k hk
      rcases hS k hk with ⟨p, hp, hpk, e, he, heS⟩
      rcases mem_buildDict _ _ p hp with ⟨v, hv, rfl⟩
      exact ⟨v, hv, hpk, e, he, heS⟩
  exact resid_empty_of_acyclic hndd le_rfl hclosedd hnocycled

/-- C1: For every acyclic set of descriptors — pairwise-distinct
identities, every declared dependency present in the set, and no dependency
cycle — `resolve` (`_topological_sort_views`) returns a sequence containing
every input descriptor exactly once, and for every descriptor `D` and every
dependency `E` of `D`, the descriptor with identity `E` appears strictly
before `D` in the output sequence. -/
theorem c1_resolve_topological_order (views : List View)
    (hnd : (views.map View.cls).Nodup) (hclosed : DepsClosed views)
    (hacyc : ¬HasCycle views) :
    ∃ out, topologicalSortViews views = .ok out ∧
      out.Perm views ∧ (∀ v ∈ views, out.count v = 1) ∧
      ∀ v ∈ views, ∀ e ∈ v.view_dependencies,
        (out.map View.cls).indexOf e < (out.map View.cls).indexOf v.cls := by
  have hndd : (dictKeys (viewToDeps views)).Nodup := buildDict_keys_nodup _ views
  have hres : residualMap views = [] :=
    residualMap_empty_of_acyclic hclosed hacyc
  refine ⟨_, topologicalSortViews_eq_ok_of_resid hres, out_perm_views hnd hres,
    ?_, ?_⟩
  · intro v hv
    rw [(out_perm_views hnd hres).count_eq]
    exact List.count_eq_one_of_mem (List.Nodup.of_map View.cls hnd) hv
  · intro v hv e he
    rw [out_map_cls views]
    exact loopDict_order hndd hres (v.cls, v.view_dependencies)
      (mem_viewToDeps_of_nodup hnd hv) e he

/-- Witness for C1 on the linear chain 1 → 2 → 3. -/
theorem c1_resolve_topological_order_witness :
    ∃ out, topologicalSortViews [exA, exB, exC] = .ok out ∧
      out.Perm [exA, exB, exC] ∧ (∀ v ∈ [exA, exB, exC], out.count v = 1) ∧
      ∀ v ∈ [exA, exB, exC], ∀ e ∈ v.view_dependencies,
        (out.map View.cls).indexOf e < (out.map View.cls).indexOf v.cls :=
  c1_resolve_topological_order [exA, exB, exC] (by decide)
    (by unfold DepsClosed; decide) (by unfold HasCycle; decide)

theorem resolvable_iff_mem_resolvedIds {views : List View} {e : Nat} :
    e ∈ resolvedIds views ↔ Resolvable (viewToDeps views) e := by
  constructor
  · exact mem_flatten_resolvable e
  · exact resolvable_mem_flatten (buildDict_keys_nodup _ _) le_rfl e

theorem resolvedIds_disjoint_residual {views : List View} :
    ∀ k ∈ resolvedIds views, k ∉ dictKeys (residualMap views) := by
  have hperm := loopDict_flatten_perm (viewToDeps views).length
    (viewToDeps views) (buildDict_keys_nodup _ _)
  have hnd : (resolvedIds views ++ dictKeys (residualMap views)).Nodup :=
    hperm.symm.nodup (buildDict_keys_nodup _ _)
  exact List.disjoint_of_nodup_append hnd

theorem mem_residual_keys_iff {views : List View} {k : Nat} :
    k ∈ dictKeys (residualMap views) ↔
      k ∈ dictKeys (viewToDeps views) ∧ ¬Resolvable (viewToDeps views) k := by
  have hperm := loopDict_flatten_perm (viewToDeps views).length
    (viewToDeps views) (buildDict_keys_nodup _ _)
  constructor
  · intro hk
    refine ⟨hperm.subset (List.mem_append.mpr (Or.inr hk)), ?_⟩
    intro hres
    exact resolvedIds_disjoint_residual k
      (resolvable_iff_mem_resolvedIds.mpr hres) hk
  · rintro ⟨hkd, hnres⟩
    rcases List.mem_append.mp (hperm.symm.subset hkd) with h | h
    · exact absurd (resolvable_iff_mem_resolvedIds.mp h) hnres
    · exact h

/-- C2: For every set of descriptors (distinct identities) containing a
dependency cycle, `resolve` fails with a `CyclicDependencyError` whose
reported residual map contains exactly the identities that could not be
resolved, each mapped to its still-unsatisfied dependencies. -/
theorem c2_cycle_error_residual (views : List View)
    (hnd : (views.map View.cls).Nodup) (hcyc : HasCycle views) :
    ∃ err, topologicalSortViews views = .error err ∧
      (∀ k, k ∈ dictKeys err.residual ↔
        (∃ v ∈ views, v.cls = k) ∧ ¬Resolvable (viewToDeps views) k) ∧
      ∀ q ∈ err.residual, ∃ v ∈ views, v.cls = q.1 ∧
        ∀ e, e ∈ q.2 ↔
          e ∈ v.view_dependencies ∧ ¬Resolvable (viewToDeps views) e := by
  have hndd : (dictKeys (viewToDeps views)).Nodup := buildDict_keys_nodup _ views
  rcases hcyc with ⟨S, _, hSne, hS⟩
  have hSdict : ∀ k ∈ S, ∃ p ∈ viewToDeps views, p.1 = k ∧ ∃ e ∈ p.2, e ∈ S := by
    intro k hk
    rcases hS k hk with ⟨v, hv, hvc, e, he, heS⟩
    exact ⟨(v.cls, v.view_dependencies), mem_viewToDeps_of_nodup hnd hv,
      hvc, e, he, heS⟩
  have hres : residualMap views ≠ [] :=
    resid_nonempty_of_cycle hndd S hSne hSdict
  refine ⟨⟨residualMap views⟩, topologicalSortViews_eq_error_of_resid hres,
    ?_, ?_⟩
  · intro k
    rw [show (CyclicDependencyError.mk (residualMap views)).residual =
      residualMap views from rfl]
    rw [mem_residual_keys_iff]
    have hiff := mem_dictKeys_buildDict (fun v => v.view_dependencies) views k
    constructor
    · rintro ⟨h1, h2⟩
      exact ⟨hiff.mp h1, h2⟩
    · rintro ⟨h1, h2⟩
      exact ⟨hiff.mpr h1, h2⟩
  · intro q hq
    rcases loopDict_resid_deps _ _ q hq with ⟨p, hp, hqk, hq2⟩
    rcases mem_buildDict _ _ p hp with ⟨v, hv, rfl⟩
    refine ⟨v, hv, hqk.symm, ?_⟩
    intro e
    rw [hq2]
    rw [List.mem_filter]
    constructor
    · rintro ⟨h1, h2⟩
      refine ⟨h1, ?_⟩
      intro hresv
      rw [decide_eq_true_eq] at h2
      exact h2 (resolvable_iff_mem_resolvedIds.mpr hresv)
    · rintro ⟨h1, h2⟩
      refine ⟨h1, ?_⟩
      rw [decide_eq_true_eq]
      intro hmem
      exact h2 (resolvable_iff_mem_resolvedIds.mp hmem)

/-- Witness for C2 on the two-cycle 1 ⇄ 2. -/
theorem c2_cycle_error_residual_witness :
    ∃ err, topologicalSortViews [exCyc1, exCyc2] = .error err ∧
      (∀ k, k ∈ dictKeys err.residual ↔
        (∃ v ∈ [exCyc1, exCyc2], v.cls = k) ∧
          ¬Resolvable (viewToDeps [exCyc1, exCyc2]) k) ∧
      ∀ q ∈ err.residual, ∃ v ∈ [exCyc1, exCyc2], v.cls = q.1 ∧
        ∀ e, e ∈ q.2 ↔ e ∈ v.view_dependencies ∧
          ¬Resolvable (viewToDeps [exCyc1, exCyc2]) e :=
  c2_cycle_error_residual [exCyc1, exCyc2] (by decide)
    (by unfold HasCycle; decide)

/-- C7: A descriptor depending on an identity absent from the supplied
set is never satisfied: it remains in the unresolved working map (its
dangling dependency still listed as unsatisfied) and `resolve` raises the
cycle error rather than silently omitting the descriptor. -/
theorem c7_dangling_dependency_error (views : List View)
    (hnd : (views.map View.cls).Nodup) (v : View) (hv : v ∈ views)
    (e : Nat) (he : e ∈ v.view_dependencies)
    (hmiss : ∀ w ∈ views, w.cls ≠ e) :
    ∃ err, topologicalSortViews views = .error err ∧
      v.cls ∈ dictKeys err.residual ∧
      ∃ q ∈ err.residual, q.1 = v.cls ∧ e ∈ q.2 := by
  have hndd : (dictKeys (viewToDeps views)).Nodup := buildDict_keys_nodup _ views
  have hekeys : e ∉ dictKeys (viewToDeps views) := by
    intro hmem
    rcases (mem_dictKeys_buildDict _ _ _).mp hmem with ⟨w, hw, hwc⟩
    exact hmiss w hw hwc
  have henres : ¬Resolvable (viewToDeps views) e := by
    intro hres
    cases hres with
    | intro p hp _ => exact hekeys (mem_keys_of_mem hp)
  have heflat : e ∉ resolvedIds views :=
    fun hmem => henres (resolvable_iff_mem_resolvedIds.mp hmem)
  have hp : (v.cls, v.view_dependencies) ∈ viewToDeps views :=
    mem_viewToDeps_of_nodup hnd hv
  have hvflat : v.cls ∉ resolvedIds views := by
    intro hmem
    exact heflat (loopDict_flatten_deps hndd _ hp hmem e he)
  have hvres : v.cls ∈ dictKeys (residualMap views) :=
    mem_residual_keys_iff.mpr ⟨mem_keys_of_mem hp,
      fun hres => hvflat (resolvable_iff_mem_resolvedIds.mpr hres)⟩
  have hresne : residualMap views ≠ [] := by
    intro hnil
    rw [hnil] at hvres
    cases hvres
  refine ⟨⟨residualMap views⟩, topologicalSortViews_eq_error_of_resid hresne,
    hvres, ?_⟩
  rcases dictGet_eq_some_of_mem_keys hvres with ⟨dv, _, hdv⟩
  rcases loopDict_resid_deps _ _ _ hdv with ⟨p0, hp0, hk0, hq2⟩
  have hpp0 : (v.cls, v.view_dependencies) = p0 := entry_unique hndd hp hp0 hk0
  refine ⟨(v.cls, dv), hdv, rfl, ?_⟩
  show e ∈ (v.cls, dv).2
  rw [hq2, ← hpp0]
  refine List.mem_filter.mpr ⟨he, ?_⟩
  rw [decide_eq_true_eq]
  exact heflat

/-- Witness for C7: descriptor 5 depends on the absent identity 99. -/
theorem c7_dangling_dependency_error_witness :
    ∃ err, topologicalSortViews [exC, exDangling] = .error err ∧
      exDangling.cls ∈ dictKeys err.residual ∧
      ∃ q ∈ err.residual, q.1 = exDangling.cls ∧ 99 ∈ q.2 :=
  c7_dangling_dependency_error [exC, exDangling] (by decide) exDangling
    (by decide) 99 (by decide) (by decide)

theorem loopDict_nil (fuel : Nat) : loopDict fuel [] = ([], []) := by
  cases fuel with
  | zero => rfl
  | succ fuel => rw [loopDict_succ, if_pos (by rfl)]

theorem loopDict_stable : ∀ (f g : Nat) (d : Dict (List Nat)),
    d.length ≤ f → d.length ≤ g → loopDict f d = loopDict g d := by
  intro f
  induction f with
  | zero =>
    intro g d hf _
    have hd : d = [] := List.length_eq_zero.mp (Nat.le_zero.mp hf)
    subst hd
    rw [loopDict_nil, loopDict_nil]
  | succ f ih =>
    intro g d hf hg
    cases g with
    | zero =>
      have hd : d = [] := List.length_eq_zero.mp (Nat.le_zero.mp hg)
      subst hd
      rw [loopDict_nil, loopDict_nil]
    | succ g =>
      rw [loopDict_succ, loopDict_succ]
      by_cases hb : (batchOf d).isEmpty
      · rw [if_pos hb, if_pos hb]
      · rw [if_neg hb, if_neg hb]
        have hlt := length_stepDict_lt
          (fun hh => hb (List.isEmpty_iff.mpr hh))
        rw [ih g (stepDict d)
          (Nat.le_of_lt_succ (Nat.lt_of_lt_of_le hlt hf))
          (Nat.le_of_lt_succ (Nat.lt_of_lt_of_le hlt hg))]

theorem length_dictInsert_le {α : Type} (d : Dict α) (k : Nat) (v : α) :
    (dictInsert d k v).length ≤ d.length + 1 := by
  induction d with
  | nil => simp [dictInsert]
  | cons p ps ih =>
    by_cases h : p.1 = k
    · simp [dictInsert, h]
    · simp only [dictInsert, if_neg h, List.length_cons]
      exact Nat.succ_le_succ ih

theorem buildDictAux_length_le {α : Type} (f : View → α) :
    ∀ (vs : List View) (d : Dict α),
      (buildDictAux f vs d).length ≤ d.length + vs.length := by
  intro vs
  induction vs with
  | nil => intro d; simp [buildDictAux]
  | cons v vs ih =>
    intro d
    rw [buildDictAux]
    calc (buildDictAux f vs (dictInsert d v.cls (f v))).length
        ≤ (dictInsert d v.cls (f v)).length + vs.length := ih _
      _ ≤ (d.length + 1) + vs.length :=
          Nat.add_le_add_right (length_dictInsert_le d v.cls (f v)) _
      _ = d.length + (v :: vs).length := by
          rw [List.length_cons]
          omega

theorem viewToDeps_length_le (views : List View) :
    (viewToDeps views).length ≤ views.length := by
  have := buildDictAux_length_le (fun v => v.view_dependencies) views []
  simpa [viewToDeps, buildDict] using this

/-- C9: The resolution loop of `_sets_of_views_deps_iterator` terminates
within `N` iterations for `N` input descriptors: running it with any fuel of
at least `N` yields the same batches and the same residual map as running it
with fuel exactly `N`; at that point no further batch is available (the
fixed point has been reached — for an acyclic graph because the working map
is empty, for a cyclic one because no entry has an empty remaining
dependency set); and each productive iteration removes at least one entry
from the working map. -/
theorem c9_loop_iteration_bound (views : List View) (fuel : Nat)
    (hfuel : views.length ≤ fuel) :
    loopDict fuel (viewToDeps views) =
      loopDict views.length (viewToDeps views) ∧
    batchOf (loopDict fuel (viewToDeps views)).2 = [] ∧
    ∀ d : Dict (List Nat), batchOf d ≠ [] → (stepDict d).length < d.length := by
  have hlen := viewToDeps_length_le views
  refine ⟨loopDict_stable fuel views.length (viewToDeps views)
    (Nat.le_trans hlen hfuel) hlen, ?_, ?_⟩
  · exact loopDict_final_batch (Nat.le_trans hlen hfuel)
  · exact fun d hb => length_stepDict_lt hb

/-- Witness for C9 on a 3-descriptor graph with surplus fuel. -/
theorem c9_loop_iteration_bound_witness :
    loopDict 17 (viewToDeps [exA, exB, exC]) =
      loopDict ([exA, exB, exC] : List View).length
        (viewToDeps [exA, exB, exC]) ∧
    batchOf (loopDict 17 (viewToDeps [exA, exB, exC])).2 = [] ∧
    ∀ d : Dict (List Nat), batchOf d ≠ [] → (stepDict d).length < d.length :=
  c9_loop_iteration_bound [exA, exB, exC] 17 (by decide)

theorem topologicalSortViews_ok_inv {views : List View} {out : List View}
    (h : topologicalSortViews views = .ok out) :
    residualMap views = [] ∧
    out = (resolvedIds views).filterMap
      (fun c => dictGet (viewClsToView views) c) := by
  by_cases hres : residualMap views = []
  · have heq := topologicalSortViews_eq_ok_of_resid hres
    rw [h] at heq
    exact ⟨hres, Except.ok.inj heq⟩
  · have heq := topologicalSortViews_eq_error_of_resid hres
    rw [h] at heq
    cases heq

/-- C10: Each identity appears at most once in `resolve`'s output, even
when the input contains several descriptor instances sharing one identity:
the identity-keyed working maps keep exactly one representative per
identity — the last one encountered — so duplicates are silently collapsed;
and the empty input resolves to the empty sequence without error. -/
theorem c10_duplicate_identities_collapse (views : List View)
    (out : List View) (hok : topologicalSortViews views = .ok out) :
    (out.map View.cls).Nodup ∧
    (∀ w ∈ out, views.reverse.find? (fun v => v.cls == w.cls) = some w) ∧
    topologicalSortViews ([] : List View) = .ok [] := by
  rcases topologicalSortViews_ok_inv hok with ⟨hres, rfl⟩
  refine ⟨?_, ?_, rfl⟩
  · rw [out_map_cls views]
    exact (resolvedIds_perm_keys hres).symm.nodup (buildDict_keys_nodup _ _)
  · intro w hw
    rcases List.mem_filterMap.mp hw with ⟨c, _, hget⟩
    have hget' := hget
    rw [viewClsToView, dictGet_buildDict] at hget'
    cases hf : views.reverse.find? (fun v => v.cls == c) with
    | none => rw [hf] at hget'; cases hget'
    | some u =>
      rw [hf] at hget'
      have huw : u = w := Option.some.inj hget'
      have hcls : w.cls = c := by
        have := List.find?_some hf
        rw [huw] at this
        simpa using this
      rw [hcls]
      rw [huw] at hf
      exact hf

/-- Witness for C10: two descriptors share identity 7; the output keeps only
the later instance. -/
theorem c10_duplicate_identities_collapse_witness :
    ((([exDupLast] : List View).map View.cls).Nodup) ∧
    (∀ w ∈ [exDupLast],
      ([exDupFirst, exDupLast] : List View).reverse.find?
        (fun v => v.cls == w.cls) = some w) ∧
    topologicalSortViews ([] : List View) = .ok [] :=
  c10_duplicate_identities_collapse [exDupFirst, exDupLast] [exDupLast] rfl

/-! ## Lemmas about the orchestrator -/

theorem syncOneDb_error {grantee : Option String} {database : String}
    {views : List View} {e : CyclicDependencyError}
    (herr : topologicalSortViews views = .error e) :
    syncOneDb grantee database views = .error e := by
  rw [syncOneDb, herr]

theorem syncOneDb_ok {grantee : Option String} {database : String}
    {views : List View} {vs : List View}
    (hok : topologicalSortViews views = .ok vs) :
    syncOneDb grantee database views =
      .ok ([Ev.openCursor database, Ev.beginAtomic database,
            Ev.execute database dropCreateSchemaSql []] ++
           createEvents database vs ++ grantEvents grantee database vs ++
           [Ev.endAtomic database, Ev.closeCursor database,
            Ev.logSynced database vs.length]) := by
  rw [syncOneDb, hok]

theorem syncOneDb_ok_inv {grantee : Option String} {database : String}
    {views : List View} {evs : List Ev}
    (h : syncOneDb grantee database views = .ok evs) :
    ∃ vs, topologicalSortViews views = .ok vs ∧
      evs = [Ev.openCursor database, Ev.beginAtomic database,
             Ev.execute database dropCreateSchemaSql []] ++
            createEvents database vs ++ grantEvents grantee database vs ++
            [Ev.endAtomic database, Ev.closeCursor database,
             Ev.logSynced database vs.length] := by
  cases hts : topologicalSortViews views with
  | error e =>
    rw [syncOneDb_error hts] at h
    cases h
  | ok vs =>
    rw [syncOneDb_ok hts] at h
    exact ⟨vs, rfl, (Except.ok.inj h).symm⟩

theorem syncViews_nil (grantee : Option String) :
    syncViews [] grantee = ⟨[], none, none⟩ := rfl

theorem syncViews_cons_error {database : String} {views : List View}
    {rest : List (String × List View)} {grantee : Option String}
    {e : CyclicDependencyError}
    (h : syncOneDb grantee database views = .error e) :
    syncViews ((database, views) :: rest) grantee = ⟨[], some e, none⟩ := by
  rw [syncViews, h]

theorem syncViews_cons_ok {database : String} {views : List View}
    {rest : List (String × List View)} {grantee : Option String}
    {evs : List Ev} (h : syncOneDb grantee database views = .ok evs) :
    syncViews ((database, views) :: rest) grantee =
      ⟨evs ++ (syncViews rest grantee).events,
       (syncViews rest grantee).error, none⟩ := by
  rw [syncViews, h]

theorem filterMap_hidden {F : View → Ev} : ∀ vs : List View,
    vs.filterMap (fun v => if v.hidden then none else some (F v)) =
      (vs.filter (fun v => !v.hidden)).map F := by
  intro vs
  induction vs with
  | nil => rfl
  | cons v vs ih =>
    by_cases h : v.hidden
    · rw [List.filterMap_cons, List.filter_cons]
      simp [h, ih]
    · rw [List.filterMap_cons, List.filter_cons]
      simp [h, ih]

theorem grantEvents_some (database user : String) (vs : List View) :
    grantEvents (some user) database vs =
      Ev.execute database (grantUsageSql user) [] ::
      (vs.filter (fun v => !v.hidden)).map
        (fun v => Ev.execute database (grantSelectSql v.name user) []) := by
  show [Ev.execute database (grantUsageSql user) []] ++
    vs.filterMap (fun v => if v.hidden then none
      else some (Ev.execute database (grantSelectSql v.name user) [])) = _
  rw [filterMap_hidden]
  rfl

theorem grantEvents_none (database : String) (vs : List View) :
    grantEvents none database vs = [] := by
  show [] ++ vs.filterMap (fun _ => none) = []
  rw [List.nil_append]
  induction vs with
  | nil => rfl
  | cons v vs ih => rw [List.filterMap_cons]; exact ih

/-- C3 (corrected): a successful single-database rebuild over `N`
descriptors (distinct identities, dependencies closed, acyclic) executes
exactly `N` creation statements and logs the created-count `N` for that
database — but `sync_views` has no `return` statement, so the count is
reported only through the log; the function's Python return value is
`None`, not the count. -/
theorem c3_created_count_logged_not_returned (database : String)
    (views : List View) (grantee : Option String)
    (hnd : (views.map View.cls).Nodup) (hclosed : DepsClosed views)
    (hacyc : ¬HasCycle views) :
    ∃ vs, topologicalSortViews views = .ok vs ∧ vs.length = views.length ∧
      (createEvents database vs).length = views.length ∧
      Ev.logSynced database views.length ∈
        (syncViews [(database, views)] grantee).events ∧
      (syncViews [(database, views)] grantee).error = none ∧
      (syncViews [(database, views)] grantee).returned = none := by
  have hres : residualMap views = [] :=
    residualMap_empty_of_acyclic hclosed hacyc
  have hok := topologicalSortViews_eq_ok_of_resid hres
  have hperm := out_perm_views hnd hres
  have hlen : ((resolvedIds views).filterMap
      (fun c => dictGet (viewClsToView views) c)).length = views.length :=
    hperm.length_eq
  refine ⟨_, hok, hlen, ?_, ?_, ?_, ?_⟩
  · rw [createEvents, List.length_map, hlen]
  · rw [syncViews_cons_ok (syncOneDb_ok hok), syncViews_nil]
    show Ev.logSynced database views.length ∈ _ ++ []
    rw [List.append_nil, ← hlen]
    simp
  · rw [syncViews_cons_ok (syncOneDb_ok hok), syncViews_nil]
  · rw [syncViews_cons_ok (syncOneDb_ok hok)]

/-- Witness for C3 (corrected) on a 3-descriptor acyclic database. -/
theorem c3_created_count_logged_not_returned_witness :
    ∃ vs, topologicalSortViews [exA, exB, exC] = .ok vs ∧
      vs.length = ([exA, exB, exC] : List View).length ∧
      (createEvents "db1" vs).length = ([exA, exB, exC] : List View).length ∧
      Ev.logSynced "db1" ([exA, exB, exC] : List View).length ∈
        (syncViews [("db1", [exA, exB, exC])] (some "reader")).events ∧
      (syncViews [("db1", [exA, exB, exC])] (some "reader")).error = none ∧
      (syncViews [("db1", [exA, exB, exC])] (some "reader")).returned = none :=
  c3_created_count_logged_not_returned "db1" [exA, exB, exC] (some "reader")
    (by decide) (by unfold DepsClosed; decide) (by unfold HasCycle; decide)

/-- Counterexample to C3 as stated: the rebuild of 3 descriptors succeeds
(the log line reports 3 created views), yet the value returned by
`sync_views` is `None`, not the created-count 3 — the function body has no
`return` statement. -/
theorem c3_returns_count_counterexample :
    (syncViews exGoodRegistry (some "reader")).error = none ∧
    Ev.logSynced "db1" 3 ∈ (syncViews exGoodRegistry (some "reader")).events ∧
    (syncViews exGoodRegistry (some "reader")).returned ≠ some 3 := by
  refine ⟨rfl, ?_, ?_⟩
  · decide
  · intro h
    cases h

/-- C5: When resolution fails with a cycle error, the rebuild of that
target database performs zero database side effects: the error is raised
before the cursor is opened, before the atomic block is entered and before
any statement is executed, so the event trace is empty. -/
theorem c5_resolution_failure_no_side_effects (database : String)
    (views : List View) (grantee : Option String)
    (e : CyclicDependencyError)
    (herr : topologicalSortViews views = .error e) :
    syncViews [(database, views)] grantee = ⟨[], some e, none⟩ :=
  syncViews_cons_error (syncOneDb_error herr)

/-- Witness for C5 on the cyclic pair 1 ⇄ 2. -/
theorem c5_resolution_failure_no_side_effects_witness :
    syncViews [("db1", [exCyc1, exCyc2])] none =
      ⟨[], some ⟨[(1, [2]), (2, [1])]⟩, none⟩ :=
  c5_resolution_failure_no_side_effects "db1" [exCyc1, exCyc2] none
    ⟨[(1, [2]), (2, [1])]⟩ rfl

/-- C6: With a grantee, a successful rebuild issues exactly one
namespace-usage grant, followed by one select grant per non-hidden
descriptor in the same resolved order as creation; with no grantee, no
grant statement is issued at all (the trace is exactly the creation trace).
-/
theorem c6_grant_sequence (database : String) (views : List View)
    (user : String) (vs : List View)
    (hok : topologicalSortViews views = .ok vs) :
    syncOneDb (some user) database views =
      .ok ([Ev.openCursor database, Ev.beginAtomic database,
            Ev.execute database dropCreateSchemaSql []] ++
           createEvents database vs ++
           (Ev.execute database (grantUsageSql user) [] ::
            (vs.filter (fun v => !v.hidden)).map
              (fun v => Ev.execute database (grantSelectSql v.name user) [])) ++
           [Ev.endAtomic database, Ev.closeCursor database,
            Ev.logSynced database vs.length]) ∧
    syncOneDb none database views =
      .ok ([Ev.openCursor database, Ev.beginAtomic database,
            Ev.execute database dropCreateSchemaSql []] ++
           createEvents database vs ++
           [Ev.endAtomic database, Ev.closeCursor database,
            Ev.logSynced database vs.length]) := by
  constructor
  · rw [syncOneDb_ok hok, grantEvents_some]
  · rw [syncOneDb_ok hok, grantEvents_none, List.append_nil]

/-- Witness for C6: resolved order `[exC, exB, exA]` with `exB` hidden
yields one usage grant and two select grants (for `c` and `a`), in resolved
order; without a grantee there is no grant event. -/
theorem c6_grant_sequence_witness :
    syncOneDb (some "reader") "db1" [exA, exB, exC] =
      .ok ([Ev.openCursor "db1", Ev.beginAtomic "db1",
            Ev.execute "db1" dropCreateSchemaSql []] ++
           createEvents "db1" [exC, exB, exA] ++
           (Ev.execute "db1" (grantUsageSql "reader") [] ::
            (([exC, exB, exA] : List View).filter (fun v => !v.hidden)).map
              (fun v =>
                Ev.execute "db1" (grantSelectSql v.name "reader") [])) ++
           [Ev.endAtomic "db1", Ev.closeCursor "db1",
            Ev.logSynced "db1" ([exC, exB, exA] : List View).length]) ∧
    syncOneDb none "db1" [exA, exB, exC] =
      .ok ([Ev.openCursor "db1", Ev.beginAtomic "db1",
            Ev.execute "db1" dropCreateSchemaSql []] ++
           createEvents "db1" [exC, exB, exA] ++
           [Ev.endAtomic "db1", Ev.closeCursor "db1",
            Ev.logSynced "db1" ([exC, exB, exA] : List View).length]) :=
  c6_grant_sequence "db1" [exA, exB, exC] "reader" [exC, exB, exA] rfl

/-- C4 (corrected): each registry entry is processed inside its own
cursor/atomic block, entered during that entry's loop iteration — but a
resolution failure on one target database propagates out of `sync_views`
immediately: the databases after the failing one are not processed at all,
and no events are recorded for them. -/
theorem c4_per_db_transaction_failure_aborts
    (pre : List (String × List View)) (database : String) (views : List View)
    (post : List (String × List View)) (grantee : Option String)
    (e : CyclicDependencyError)
    (hpre : ∀ p ∈ pre, ∃ evs, syncOneDb grantee p.1 p.2 = .ok evs)
    (herr : topologicalSortViews views = .error e) :
    (syncViews (pre ++ (database, views) :: post) grantee).error = some e ∧
    (syncViews (pre ++ (database, views) :: post) grantee).events =
      (syncViews pre grantee).events ∧
    ∀ (db' : String) (views' : List View) (evs : List Ev),
      syncOneDb grantee db' views' = .ok evs →
      ∃ body n, evs = Ev.openCursor db' :: Ev.beginAtomic db' :: body ++
        [Ev.endAtomic db', Ev.closeCursor db', Ev.logSynced db' n] := by
  have hmain : ∀ pr : List (String × List View),
      (∀ p ∈ pr, ∃ evs, syncOneDb grantee p.1 p.2 = .ok evs) →
      (syncViews (pr ++ (database, views) :: post) grantee).error = some e ∧
      (syncViews (pr ++ (database, views) :: post) grantee).events =
        (syncViews pr grantee).events := by
    intro pr
    induction pr with
    | nil =>
      intro _
      rw [List.nil_append, syncViews_cons_error (syncOneDb_error herr)]
      exact ⟨rfl, rfl⟩
    | cons p pr ih =>
      intro hpr
      rcases p with ⟨db0, views0⟩
      rcases hpr (db0, views0) (List.mem_cons_self _ _) with ⟨evs, hp⟩
      have hp' : syncOneDb grantee db0 views0 = .ok evs := hp
      have hpr' : ∀ q ∈ pr, ∃ evs, syncOneDb grantee q.1 q.2 = .ok evs :=
        fun q hq => hpr q (List.mem_cons_of_mem _ hq)
      rcases ih hpr' with ⟨ih1, ih2⟩
      rw [List.cons_append, syncViews_cons_ok hp', syncViews_cons_ok hp']
      exact ⟨ih1, congrArg (fun l => evs ++ l) ih2⟩
  refine ⟨(hmain pre hpre).1, (hmain pre hpre).2, ?_⟩
  intro db' views' evs h
  rcases syncOneDb_ok_inv h with ⟨vs, _, hevs⟩
  refine ⟨Ev.execute db' dropCreateSchemaSql [] ::
    (createEvents db' vs ++ grantEvents grantee db' vs), vs.length, ?_⟩
  rw [hevs]
  simp

/-- Witness for C4 (corrected): one healthy database before the failing
one. -/
theorem c4_per_db_transaction_failure_aborts_witness :
    (syncViews ([("db0", [exC])] ++ ("db1", [exCyc1, exCyc2]) ::
      [("db2", [exC])]) none).error = some ⟨[(1, [2]), (2, [1])]⟩ ∧
    (syncViews ([("db0", [exC])] ++ ("db1", [exCyc1, exCyc2]) ::
      [("db2", [exC])]) none).events = (syncViews [("db0", [exC])] none).events ∧
    ∀ (db' : String) (views' : List View) (evs : List Ev),
      syncOneDb none db' views' = .ok evs →
      ∃ body n, evs = Ev.openCursor db' :: Ev.beginAtomic db' :: body ++
        [Ev.endAtomic db', Ev.closeCursor db', Ev.logSynced db' n] :=
  c4_per_db_transaction_failure_aborts [("db0", [exC])] "db1"
    [exCyc1, exCyc2] [("db2", [exC])] none ⟨[(1, [2]), (2, [1])]⟩
    (fun p hp => by
      rcases List.mem_singleton.mp hp with rfl
      exact ⟨_, rfl⟩)
    rfl

/-- Counterexample to C4 as stated: with a registry whose first database
holds a cycle, `sync_views` raises at once — the second database, which on
its own would produce a nonempty trace, is never processed in the combined
run, so a failure on one target database does prevent the remaining target
databases from being processed. -/
theorem c4_other_databases_not_processed_counterexample :
    (syncViews exBadRegistry none).error.isSome = true ∧
    (syncViews exBadRegistry none).events = [] ∧
    (syncViews [("db2", [exC])] none).events ≠ [] := by
  refine ⟨rfl, rfl, ?_⟩
  intro h
  cases h

/-! ## Lemmas about the store-level model -/

theorem storeExtends_refl (sigma : PyState) : StoreExtends sigma sigma :=
  ⟨[], by rw [List.append_nil]⟩

theorem storeExtends_trans {a b c : PyState} (h1 : StoreExtends a b)
    (h2 : StoreExtends b c) : StoreExtends a c := by
  rcases h1 with ⟨x, hx⟩
  rcases h2 with ⟨y, hy⟩
  exact ⟨x ++ y, by rw [hy, hx, List.append_assoc]⟩

theorem storeExtends_pyNewSet (sigma : PyState) (xs : List Nat) :
    StoreExtends sigma (pyNewSet sigma xs).2 := ⟨[xs], rfl⟩

theorem buildViewToDepsRefs_extends :
    ∀ (vs : List ViewObj) (d : Dict Nat) (sigma : PyState),
      StoreExtends sigma (buildViewToDepsRefs vs d sigma).2 := by
  intro vs
  induction vs with
  | nil => intro d sigma; exact storeExtends_refl sigma
  | cons v vs ih =>
    intro d sigma
    rw [buildViewToDepsRefs]
    exact storeExtends_trans (storeExtends_pyNewSet sigma _) (ih _ _)

theorem stepDictRefs_extends (ordered : List Nat) :
    ∀ (d : Dict Nat) (sigma : PyState),
      StoreExtends sigma (stepDictRefs ordered d sigma).2 := by
  intro d
  induction d with
  | nil => intro sigma; exact storeExtends_refl sigma
  | cons p ps ih =>
    intro sigma
    rw [stepDictRefs]
    by_cases h : p.1 ∈ ordered
    · rw [if_pos h]
      exact ih sigma
    · rw [if_neg h]
      exact storeExtends_trans (storeExtends_pyNewSet sigma _) (ih _)

theorem loopDictRefs_extends :
    ∀ (fuel : Nat) (d : Dict Nat) (sigma : PyState),
      StoreExtends sigma (loopDictRefs fuel d sigma).2 := by
  intro fuel
  induction fuel with
  | zero => intro d sigma; exact storeExtends_refl sigma
  | succ fuel ih =>
    intro d sigma
    rw [loopDictRefs]
    by_cases h : (batchOfRefs sigma d).isEmpty
    · rw [if_pos h]
      exact storeExtends_refl sigma
    · rw [if_neg h]
      exact storeExtends_trans (stepDictRefs_extends _ d sigma) (ih _ _)

theorem pyReadSet_of_extends {sigma sigma' : PyState}
    (h : StoreExtends sigma sigma') {r : Nat} (hr : r < sigma.sets.length) :
    pyReadSet sigma' r = pyReadSet sigma r := by
  rcases h with ⟨extra, hex⟩
  rw [pyReadSet, pyReadSet, hex, List.getElem?_append_left hr]

/-- C8: `_sets_of_views_deps_iterator` has no observable side effect on
its arguments: it copies the `views` collection and builds a fresh set from
each view's `view_dependencies` (`set(view.view_dependencies)`), and every
later working set (`dep - ordered`) is likewise freshly allocated — so
every set object existing before resolution, in particular every
caller-supplied descriptor's dependency set, holds exactly the same
contents afterwards. -/
theorem c8_resolution_no_mutation (views : List ViewObj) (sigma : PyState) :
    (∀ r, r < sigma.sets.length →
      pyReadSet (setsOfViewsDepsIteratorRefs views sigma).2 r =
        pyReadSet sigma r) ∧
    ∀ v ∈ views, v.depsRef < sigma.sets.length →
      pyReadSet (setsOfViewsDepsIteratorRefs views sigma).2 v.depsRef =
        pyReadSet sigma v.depsRef := by
  have hext : StoreExtends sigma (setsOfViewsDepsIteratorRefs views sigma).2 :=
    storeExtends_trans (buildViewToDepsRefs_extends views [] sigma)
      (loopDictRefs_extends _ _ _)
  exact ⟨fun r hr => pyReadSet_of_extends hext hr,
    fun v _ hr => pyReadSet_of_extends hext hr⟩

/-- Witness for C8: one view whose dependency set `{2}` lives in cell 0;
after resolution the cell still reads `[2]`. -/
theorem c8_resolution_no_mutation_witness :
    pyReadSet (setsOfViewsDepsIteratorRefs [⟨1, 0⟩] ⟨[[2]]⟩).2 0 =
      pyReadSet ⟨[[2]]⟩ 0 ∧
    pyReadSet (setsOfViewsDepsIteratorRefs [⟨1, 0⟩] ⟨[[2]]⟩).2
        (ViewObj.mk 1 0).depsRef =
      pyReadSet ⟨[[2]]⟩ (ViewObj.mk 1 0).depsRef :=
  ⟨(c8_resolution_no_mutation [⟨1, 0⟩] ⟨[[2]]⟩).1 0 (by decide),
   (c8_resolution_no_mutation [⟨1, 0⟩] ⟨[[2]]⟩).2 ⟨1, 0⟩
     (List.mem_singleton.mpr rfl) (by decide)⟩

end DjangoOrmViews
